import Mathlib

/-!
Verification development for the `video_to_ppt` pipeline.

The Python sources are shallowly embedded over `ℚ` (for the float arithmetic
of timestamps and scores) and `List Char` (for Python strings).  Machine
floats are idealised as rationals; `numpy` standard deviation uses `Real.sqrt`
over `ℝ`.  Each definition's doc comment names the source function it embeds.
-/

namespace VideoToPpt

/-- Whitespace test used by Python `str.strip()` and `str.split()`; the ASCII
whitespace characters (Unicode spaces outside this range do not occur in the
pipeline's data and are treated as non-space). -/
def isSpace (c : Char) : Bool :=
  c == ' ' || c == '\t' || c == '\n' || c == '\r' || c == '\x0b' || c == '\x0c'

/-- Python `str.strip()`: drop leading and trailing whitespace. -/
def pyStrip (l : List Char) : List Char :=
  ((l.dropWhile isSpace).reverse.dropWhile isSpace).reverse

/-- Worker for `pySplit`: `acc` holds the current word reversed. -/
def pySplitGo (acc : List Char) : List Char → List (List Char)
  | [] => if acc.isEmpty then [] else [acc.reverse]
  | c :: cs =>
    if isSpace c then
      if acc.isEmpty then pySplitGo [] cs else acc.reverse :: pySplitGo [] cs
    else pySplitGo (c :: acc) cs

/-- Python `str.split()` with no argument: maximal runs of non-whitespace. -/
def pySplit (l : List Char) : List (List Char) := pySplitGo [] l

/-- Python `str.isupper()` on a single character, modelled faithfully on the
Latin-1 range (`A`–`Z` and `À`–`Þ` except `×`); higher code points are
treated as uncased. -/
def pyIsUpper (c : Char) : Bool :=
  ('A' ≤ c && c ≤ 'Z') || ('À' ≤ c && c ≤ 'Þ' && c != '×')

/-- The sentence-terminal marks `('.', '!', '?', '。', '！', '？')` used by
`merge_segments` (asr_processor.py line 189) and by the title split regex
`[。！？.!?]` (generate_structured_json.py line 113). -/
def isMark (c : Char) : Bool :=
  c == '.' || c == '!' || c == '?' || c == '。' || c == '！' || c == '？'

/-- Python `text.endswith(('.', '!', '?', '。', '！', '？'))`: every pattern is
a single character, so this is a test on the last character. -/
def endsWithMark (l : List Char) : Bool :=
  match l.getLast? with
  | some c => isMark c
  | none => false

/-- Python `next_text and next_text[0].isupper()`. -/
def startsUpper (l : List Char) : Bool :=
  match l with
  | [] => false
  | c :: _ => pyIsUpper c

/-- Python `" ".join(texts)`. -/
def joinSpace (l : List (List Char)) : List Char := List.intercalate [' '] l

/-- Round half to even, to an integer: the semantics of Python's builtin
`round` (idealised over `ℚ`).  The closed form `⌊q/2 + 1/4⌋ + ⌈q/2 - 1/4⌉`
agrees with nearest-integer rounding away from ties and picks the even
neighbour at a tie. -/
def rhe (q : ℚ) : ℤ := ⌊q / 2 + 1 / 4⌋ + ⌈q / 2 - 1 / 4⌉

/-- Python `round(q, 2)`: round half to even at the second decimal place. -/
def rnd2 (q : ℚ) : ℚ := (rhe (q * 100) : ℚ) / 100

/-- Python `int(q)`: truncation toward zero. -/
def pyInt (q : ℚ) : ℤ := if 0 ≤ q then ⌊q⌋ else ⌈q⌉

/-- Python `q % 1`: floor-based remainder, the fractional part. -/
def pyMod1 (q : ℚ) : ℚ := q - ⌊q⌋

theorem rhe_mono {x y : ℚ} (h : x ≤ y) : rhe x ≤ rhe y :=
  add_le_add (Int.floor_mono (by linarith)) (Int.ceil_mono (by linarith))

theorem abs_rhe_sub (q : ℚ) : |(rhe q : ℚ) - q| ≤ 1 / 2 := by
  have ha1 : ((⌊q / 2 + 1 / 4⌋ : ℤ) : ℚ) ≤ q / 2 + 1 / 4 := Int.floor_le _
  have ha2 : q / 2 + 1 / 4 < (⌊q / 2 + 1 / 4⌋ : ℤ) + 1 := Int.lt_floor_add_one _
  have hb1 : q / 2 - 1 / 4 ≤ ((⌈q / 2 - 1 / 4⌉ : ℤ) : ℚ) := Int.le_ceil _
  have hb2 : ((⌈q / 2 - 1 / 4⌉ : ℤ) : ℚ) < q / 2 - 1 / 4 + 1 := Int.ceil_lt_add_one _
  set a : ℤ := ⌊q / 2 + 1 / 4⌋ with hadef
  set b : ℤ := ⌈q / 2 - 1 / 4⌉ with hbdef
  have hab : a ≤ b := by
    by_contra hcon
    have h1 : b + 1 ≤ a := by omega
    have h2 : ((b : ℚ) + 1) ≤ (a : ℚ) := by exact_mod_cast h1
    linarith
  have hba : b ≤ a + 1 := by
    by_contra hcon
    have h1 : a + 2 ≤ b := by omega
    have h2 : ((a : ℚ) + 2) ≤ (b : ℚ) := by exact_mod_cast h1
    linarith
  have hcase : b = a ∨ b = a + 1 := by omega
  rw [rhe, ← hadef, ← hbdef, abs_le]
  rcases hcase with hc | hc
  · have hbq : (b : ℚ) = (a : ℚ) := by exact_mod_cast hc
    constructor <;> push_cast <;> linarith
  · have hbq : (b : ℚ) = (a : ℚ) + 1 := by exact_mod_cast hc
    constructor <;> push_cast <;> linarith

/-- Evaluation form of `rhe` using only `Int.floor`, for `norm_num`. -/
theorem rhe_eval (q : ℚ) : rhe q = ⌊q / 2 + 1 / 4⌋ - ⌊-(q / 2 - 1 / 4)⌋ := by
  rw [rhe, Int.floor_neg]
  ring

theorem rnd2_mono {x y : ℚ} (h : x ≤ y) : rnd2 x ≤ rnd2 y := by
  have h1 : rhe (x * 100) ≤ rhe (y * 100) := rhe_mono (by linarith)
  have h2 : ((rhe (x * 100) : ℤ) : ℚ) ≤ ((rhe (y * 100) : ℤ) : ℚ) := by exact_mod_cast h1
  rw [rnd2, rnd2]
  linarith

theorem abs_rnd2_sub (q : ℚ) : |rnd2 q - q| ≤ 1 / 200 := by
  have h := abs_rhe_sub (q * 100)
  rw [abs_le] at h ⊢
  rw [rnd2]
  constructor <;> [linarith [h.1]; linarith [h.2]]

/-! ## ASR segment merging (`asr_processor.py`, `ASRProcessor.merge_segments`)

A Whisper segment dict `{"start": …, "end": …, "text": …, "words": …}` is
modelled as `RawSegment W`; the word payload type `W` is opaque to the code
(the merger only copies and concatenates word lists), so it is a type
parameter.  `stop` models the `"end"` key (`end` is a Lean keyword); `words`
is `none` when the `"words"` key is absent. -/

structure RawSegment (W : Type) where
  start : ℚ
  stop : ℚ
  text : List Char
  words : Option (List W)
deriving DecidableEq, Repr

/-- Word-list handling of the merge branch (asr_processor.py lines 197-198):
`if "words" in current and "words" in next_segment:
current["words"].extend(next_segment["words"])` — the accumulator's list is
extended only when both sides carry a list, otherwise left as is. -/
def mergeWords {W : Type} : Option (List W) → Option (List W) → Option (List W)
  | some a, some b => some (a ++ b)
  | a, _ => a

/-- One step of the merge decision (asr_processor.py lines 185-190): boundary
iff the accumulator's stripped text ends with a sentence-terminal mark or the
next segment's stripped text starts with an upper-case letter. -/
def isBoundary {W : Type} (current next : RawSegment W) : Bool :=
  endsWithMark (pyStrip current.text) || startsUpper (pyStrip next.text)

/-- The loop of `merge_segments` (asr_processor.py lines 182-201), with the
open accumulator `current`.  On a boundary the accumulator is emitted and the
next segment becomes the accumulator; otherwise the accumulator absorbs the
next segment: text `current.text + " " + next_text` (where `next_text` is the
*stripped* next text, line 187/195), end timestamp `next.stop`, word lists
via `mergeWords`.  The final accumulator is emitted after the loop. -/
def mergeGo {W : Type} (current : RawSegment W) : List (RawSegment W) → List (RawSegment W)
  | [] => [current]
  | next :: rest =>
    if isBoundary current next then
      current :: mergeGo next rest
    else
      mergeGo
        { current with
          text := current.text ++ ' ' :: pyStrip next.text
          stop := next.stop
          words := mergeWords current.words next.words }
        rest

/-- `ASRProcessor.merge_segments` (asr_processor.py lines 166-203), as a pure
function on segment values.  (The in-place `list.extend` aliasing of the
Python code is modelled separately by `merge_segments_heap`; on inputs whose
word lists are distinct objects the observable result is this value.) -/
def merge_segments {W : Type} : List (RawSegment W) → List (RawSegment W)
  | [] => []
  | s :: rest => mergeGo s rest

/-- One fold step of the merging scan as claim C1 words it; the parameter
`tweak` is applied to the merged-in text (`id` for the claim as written,
which appends `next.text` verbatim; `pyStrip` for the amended claim). -/
def mergeStepClaim {W : Type} (tweak : List Char → List Char)
    (st : List (RawSegment W) × RawSegment W) (next : RawSegment W) :
    List (RawSegment W) × RawSegment W :=
  if isBoundary st.2 next then
    (st.1 ++ [st.2], next)
  else
    (st.1,
      { st.2 with
        text := st.2.text ++ ' ' :: tweak next.text
        stop := next.stop
        words := mergeWords st.2.words next.words })

/-- Claim C1 as written: a left-to-right scan with one open accumulator,
closing on the boundary condition, otherwise merging with
`accumulator.text + " " + next.text` (the raw next text), end set to
`next.end`, word lists concatenated when both present; the final accumulator
is emitted after the loop. -/
def merge_segments_claim {W : Type} : List (RawSegment W) → List (RawSegment W)
  | [] => []
  | s :: rest =>
    let st := rest.foldl (mergeStepClaim id) ([], s)
    st.1 ++ [st.2]

/-- Claim C1 amended: identical to `merge_segments_claim` except that the
merged-in text is the next segment's trimmed text. -/
def merge_segments_spec {W : Type} : List (RawSegment W) → List (RawSegment W)
  | [] => []
  | s :: rest =>
    let st := rest.foldl (mergeStepClaim pyStrip) ([], s)
    st.1 ++ [st.2]

/-! ### Heap model of `merge_segments`

`segments[i].copy()` (asr_processor.py lines 180, 192) is a *shallow* dict
copy: the copy shares the `"words"` list object with the input segment.
`current["words"].extend(...)` (line 198) then mutates that shared list.  To
observe this, word lists live in an explicit store and segments carry an
index into it (`none` models an absent `"words"` key). -/

structure HSegment where
  start : ℚ
  stop : ℚ
  text : List Char
  wordsRef : Option ℕ
deriving DecidableEq, Repr

/-- Read the word list at index `p` of the store. -/
def heapGet {W : Type} (store : List (List W)) (p : ℕ) : List W := store.getD p []

/-- `list.extend` at index `p`: in-place append, i.e. the store cell is
replaced by its old value followed by `ws`. -/
def heapExtend {W : Type} (store : List (List W)) (p : ℕ) (ws : List W) :
    List (List W) :=
  store.set p (heapGet store p ++ ws)

/-- The loop of `merge_segments` over the heap model.  A dict copy keeps the
same `wordsRef` (shallow copy); the merge branch extends the *store cell* the
accumulator points to — which is the cell of the input segment that opened
the current group. -/
def mergeHeapGo {W : Type} (current : HSegment) (store : List (List W)) :
    List HSegment → List HSegment × List (List W)
  | [] => ([current], store)
  | next :: rest =>
    if endsWithMark (pyStrip current.text) || startsUpper (pyStrip next.text) then
      let res := mergeHeapGo next store rest
      (current :: res.1, res.2)
    else
      let store' :=
        match current.wordsRef, next.wordsRef with
        | some p, some q => heapExtend store p (heapGet store q)
        | _, _ => store
      mergeHeapGo
        { current with
          text := current.text ++ ' ' :: pyStrip next.text
          stop := next.stop }
        store' rest

/-- `merge_segments` over the heap model: returns the merged segments and the
final state of the word-list store (the input segments' lists live in the
store, so mutation of an input is visible as a changed store). -/
def merge_segments_heap {W : Type} (segs : List HSegment) (store : List (List W)) :
    List HSegment × List (List W) :=
  match segs with
  | [] => ([], store)
  | s :: rest => mergeHeapGo s store rest

/-! ### Lemmas about the merge loop -/

theorem foldl_mergeStep_spec {W : Type} :
    ∀ (rest : List (RawSegment W)) (done : List (RawSegment W)) (acc : RawSegment W),
      (rest.foldl (mergeStepClaim pyStrip) (done, acc)).1 ++
          [(rest.foldl (mergeStepClaim pyStrip) (done, acc)).2] =
        done ++ mergeGo acc rest := by
  intro rest
  induction rest with
  | nil => intro done acc; simp [mergeGo]
  | cons next rest ih =>
    intro done acc
    cases h : isBoundary acc next with
    | true =>
      simp only [List.foldl_cons, mergeStepClaim]
      rw [if_pos h, ih, mergeGo, if_pos h]
      simp
    | false =>
      simp only [List.foldl_cons, mergeStepClaim]
      rw [if_neg (by simp [h]), ih, mergeGo, if_neg (by simp [h])]

/-- The merged output of a non-empty input is non-empty, and its head keeps
the accumulator's start time. -/
theorem mergeGo_head {W : Type} :
    ∀ (rest : List (RawSegment W)) (current : RawSegment W),
      ∃ r l, mergeGo current rest = r :: l ∧ r.start = current.start := by
  intro rest
  induction rest with
  | nil => intro current; exact ⟨current, [], rfl, rfl⟩
  | cons next rest ih =>
    intro current
    rw [mergeGo]
    cases h : isBoundary current next with
    | true =>
      rw [if_pos rfl]
      exact ⟨current, mergeGo next rest, rfl, rfl⟩
    | false =>
      rw [if_neg (by simp)]
      obtain ⟨r, l, hrl, hs⟩ := ih _
      exact ⟨r, l, hrl, hs⟩

/-- The merged output's last segment carries the end timestamp of the last
input segment. -/
theorem mergeGo_lastStop {W : Type} :
    ∀ (rest : List (RawSegment W)) (current : RawSegment W),
      ((mergeGo current rest).getLast?).map RawSegment.stop =
        ((current :: rest).getLast?).map RawSegment.stop := by
  intro rest
  induction rest with
  | nil => intro current; simp [mergeGo]
  | cons next rest ih =>
    intro current
    rw [mergeGo]
    cases h : isBoundary current next with
    | true =>
      rw [if_pos rfl]
      obtain ⟨r, l, hrl, -⟩ := @mergeGo_head W rest next
      rw [hrl, List.getLast?_cons_cons, ← hrl, ih next, List.getLast?_cons_cons]
    | false =>
      rw [if_neg (by simp), ih]
      cases rest with
      | nil => simp
      | cons r rs => simp [List.getLast?_cons_cons]

/-! ### Word-token preservation -/

theorem pySplitGo_append_space {c : Char} (hc : isSpace c = true) :
    ∀ (xs : List Char) (acc ys : List Char),
      pySplitGo acc (xs ++ c :: ys) = pySplitGo acc xs ++ pySplitGo [] ys := by
  intro xs
  induction xs with
  | nil =>
    intro acc ys
    simp only [List.nil_append, pySplitGo]
    rw [if_pos hc]
    cases acc <;> simp [pySplitGo]
  | cons x xs ih =>
    intro acc ys
    simp only [List.cons_append, pySplitGo]
    split_ifs <;> simp [ih]

theorem pySplit_append_space {c : Char} (hc : isSpace c = true) (xs ys : List Char) :
    pySplit (xs ++ c :: ys) = pySplit xs ++ pySplit ys :=
  pySplitGo_append_space hc xs [] ys

theorem pySplit_all_space : ∀ s : List Char, (∀ c ∈ s, isSpace c = true) → pySplit s = [] := by
  intro s
  induction s with
  | nil => intro; rfl
  | cons c cs ih =>
    intro h
    show pySplitGo [] (c :: cs) = []
    rw [pySplitGo, if_pos (h c (by simp))]
    simpa [pySplit] using ih fun d hd => h d (by simp [hd])

theorem pySplit_append_all_space (xs : List Char) :
    ∀ s : List Char, (∀ c ∈ s, isSpace c = true) → pySplit (xs ++ s) = pySplit xs := by
  intro s h
  cases s with
  | nil => simp
  | cons c cs =>
    rw [pySplit_append_space (h c (by simp)) xs cs,
      pySplit_all_space cs fun d hd => h d (by simp [hd]), List.append_nil]

theorem pySplit_dropWhile : ∀ l : List Char, pySplit (l.dropWhile isSpace) = pySplit l := by
  intro l
  induction l with
  | nil => rfl
  | cons c cs ih =>
    cases hc : isSpace c with
    | true =>
      rw [List.dropWhile_cons_of_pos hc, ih]
      show _ = pySplitGo [] (c :: cs)
      rw [pySplitGo, if_pos hc]
      simp [pySplit]
    | false => rw [List.dropWhile_cons_of_neg (by simp [hc])]

theorem pySplit_pyStrip (l : List Char) : pySplit (pyStrip l) = pySplit l := by
  have hA : pySplit (l.dropWhile isSpace) = pySplit l := pySplit_dropWhile l
  set A := l.dropWhile isSpace with hAdef
  have hsplit : A.reverse.takeWhile isSpace ++ A.reverse.dropWhile isSpace = A.reverse :=
    List.takeWhile_append_dropWhile isSpace A.reverse
  have hA2 : A = (A.reverse.dropWhile isSpace).reverse ++ (A.reverse.takeWhile isSpace).reverse := by
    conv_lhs => rw [← List.reverse_reverse A, ← hsplit]
    rw [List.reverse_append]
  have hspaces : ∀ c ∈ (A.reverse.takeWhile isSpace).reverse, isSpace c = true := by
    intro c hc
    exact List.mem_takeWhile_imp (List.mem_reverse.mp hc)
  calc pySplit (pyStrip l) = pySplit ((A.reverse.dropWhile isSpace).reverse) := rfl
    _ = pySplit ((A.reverse.dropWhile isSpace).reverse ++ (A.reverse.takeWhile isSpace).reverse) :=
        (pySplit_append_all_space _ _ hspaces).symm
    _ = pySplit A := by rw [← hA2]
    _ = pySplit l := hA

/-- The whitespace-separated word tokens of all the texts of a segment list,
in order. -/
def tokensOf {W : Type} (l : List (RawSegment W)) : List (List Char) :=
  (l.map fun s => pySplit s.text).flatten

theorem mergeGo_tokens {W : Type} :
    ∀ (rest : List (RawSegment W)) (current : RawSegment W),
      tokensOf (mergeGo current rest) = pySplit current.text ++ tokensOf rest := by
  intro rest
  induction rest with
  | nil => intro current; simp [mergeGo, tokensOf]
  | cons next rest ih =>
    intro current
    rw [mergeGo]
    cases h : isBoundary current next with
    | true =>
      rw [if_pos rfl]
      show pySplit current.text ++ tokensOf (mergeGo next rest) = _
      rw [ih next]
      simp [tokensOf]
    | false =>
      rw [if_neg (by simp), ih]
      show pySplit (current.text ++ ' ' :: pyStrip next.text) ++ tokensOf rest = _
      rw [pySplit_append_space (by decide) current.text (pyStrip next.text), pySplit_pyStrip]
      simp [tokensOf]

/-! ### Claims C1, C7, C10 -/

/-- Claim C1, counterexample to the claim as written: on two lowercase,
unpunctuated segments the code merges with the *stripped* next text
(`"a" + " " + "b"`), while the claim prescribes the raw next text
(`"a" + " " + " b "`), so the outputs differ. -/
theorem C1_counterexample :
    2 ≤ ([⟨0, 1, ['a'], none⟩, ⟨1, 2, [' ', 'b', ' '], none⟩] : List (RawSegment Unit)).length ∧
    merge_segments ([⟨0, 1, ['a'], none⟩, ⟨1, 2, [' ', 'b', ' '], none⟩] : List (RawSegment Unit)) ≠
      merge_segments_claim [⟨0, 1, ['a'], none⟩, ⟨1, 2, [' ', 'b', ' '], none⟩] := by
  decide

/-- Claim C1 (amended): for every input list of at least two raw segments,
`merge_segments` equals the left-to-right scan with one open accumulator that
closes exactly on the boundary condition (trimmed accumulator text ends with
a sentence-terminal mark, or trimmed next text starts upper-case) and
otherwise merges with text `accumulator.text + " " + trimmed(next.text)`,
end `next.end`, word lists concatenated when both present, emitting the final
accumulator after the loop. -/
theorem C1_merge_scan {W : Type} (segs : List (RawSegment W)) (h : 2 ≤ segs.length) :
    merge_segments segs = merge_segments_spec segs := by
  cases segs with
  | nil => simp at h
  | cons s rest =>
    simp only [merge_segments, merge_segments_spec]
    rw [foldl_mergeStep_spec rest [] s, List.nil_append]

/-- Witness for `C1_merge_scan` at a concrete two-segment input. -/
theorem C1_witness :
    2 ≤ ([⟨0, 1, ['H', 'i', '.'], none⟩, ⟨2, 3, ['y', 'o'], none⟩] : List (RawSegment Unit)).length ∧
    merge_segments ([⟨0, 1, ['H', 'i', '.'], none⟩, ⟨2, 3, ['y', 'o'], none⟩] : List (RawSegment Unit)) =
      merge_segments_spec [⟨0, 1, ['H', 'i', '.'], none⟩, ⟨2, 3, ['y', 'o'], none⟩] :=
  ⟨by decide, C1_merge_scan _ (by decide)⟩

/-- Claim C7: for every non-empty input, the merged output is non-empty, its
first segment keeps the first input start, its last segment keeps the last
input end, and the word tokens of the merged texts are exactly the word
tokens of the input texts, in order (so every input segment's words appear in
their original order). -/
theorem C7_merge_preserves {W : Type} (segs : List (RawSegment W)) (h : segs ≠ []) :
    merge_segments segs ≠ [] ∧
    (merge_segments segs).head?.map RawSegment.start = segs.head?.map RawSegment.start ∧
    ((merge_segments segs).getLast?).map RawSegment.stop =
      (segs.getLast?).map RawSegment.stop ∧
    tokensOf (merge_segments segs) = tokensOf segs := by
  cases segs with
  | nil => exact absurd rfl h
  | cons s rest =>
    obtain ⟨r, l, hrl, hs⟩ := @mergeGo_head W rest s
    refine ⟨?_, ?_, ?_, ?_⟩
    · show mergeGo s rest ≠ []
      rw [hrl]; simp
    · show (mergeGo s rest).head?.map RawSegment.start = _
      rw [hrl]; simp [hs]
    · exact mergeGo_lastStop rest s
    · show tokensOf (mergeGo s rest) = _
      rw [mergeGo_tokens]; simp [tokensOf]

/-- Witness for `C7_merge_preserves` at a concrete two-segment input. -/
theorem C7_witness :
    ([⟨0, 1, ['h', 'i'], none⟩, ⟨1, 2, ['a', '!'], none⟩] : List (RawSegment Unit)) ≠ [] ∧
    (merge_segments ([⟨0, 1, ['h', 'i'], none⟩, ⟨1, 2, ['a', '!'], none⟩] : List (RawSegment Unit)) ≠ [] ∧
      (merge_segments ([⟨0, 1, ['h', 'i'], none⟩, ⟨1, 2, ['a', '!'], none⟩] : List (RawSegment Unit))).head?.map
          RawSegment.start =
        ([⟨0, 1, ['h', 'i'], none⟩, ⟨1, 2, ['a', '!'], none⟩] : List (RawSegment Unit)).head?.map RawSegment.start ∧
      ((merge_segments ([⟨0, 1, ['h', 'i'], none⟩, ⟨1, 2, ['a', '!'], none⟩] : List (RawSegment Unit))).getLast?).map
          RawSegment.stop =
        (([⟨0, 1, ['h', 'i'], none⟩, ⟨1, 2, ['a', '!'], none⟩] : List (RawSegment Unit)).getLast?).map RawSegment.stop ∧
      tokensOf (merge_segments ([⟨0, 1, ['h', 'i'], none⟩, ⟨1, 2, ['a', '!'], none⟩] : List (RawSegment Unit))) =
        tokensOf ([⟨0, 1, ['h', 'i'], none⟩, ⟨1, 2, ['a', '!'], none⟩] : List (RawSegment Unit))) :=
  ⟨by decide, C7_merge_preserves _ (by decide)⟩

/-- Claim C10 is violated by the code: `merge_segments` receives two
mergeable segments whose word lists live in store cells 0 and 1; after the
call, cell 0 — the words list of the *first input segment* — has been
extended in place from `[10]` to `[10, 20]`, because the shallow dict copy
aliases the list.  So the input is mutated. -/
theorem C10_input_words_mutated :
    (merge_segments_heap [⟨0, 1, ['a'], some 0⟩, ⟨1, 2, ['b'], some 1⟩]
        ([[10], [20]] : List (List ℕ))).2 = [[10, 20], [20]] ∧
    ([[10, 20], [20]] : List (List ℕ)) ≠ [[10], [20]] := by
  decide

/-! ## Sentence apportionment (`asr_processor.py`, `process_transcription`)

The sentence-timestamping loop of `process_transcription` (lines 125-162) for
one merged segment, parameterized by the output of the external locale-aware
tokenizer `nltk.sent_tokenize` (a list of sentence strings). -/

structure Sentence where
  text : List Char
  start : ℚ
  stop : ℚ
deriving DecidableEq, Repr

/-- Total character count `total_chars = sum(len(s) for s in sentences)`
(asr_processor.py line 142). -/
def sentLens (l : List (List Char)) : ℕ := (l.map List.length).sum

/-- The unrounded `sentence_start` of line 150:
`start + (end - start) * (current_pos / total_chars) if total_chars > 0 else
start`. -/
def rawStart (start stop : ℚ) (total : ℕ) (pos : ℕ) : ℚ :=
  if 0 < total then start + (stop - start) * ((pos : ℚ) / (total : ℚ)) else start

/-- The `sentence_ratio` of line 147:
`sentence_len / total_chars if total_chars > 0 else 0`. -/
def ratioOf (total len : ℕ) : ℚ :=
  if 0 < total then (len : ℚ) / (total : ℚ) else 0

/-- The `for sentence in sentences` loop of lines 145-159: each sentence gets
`start = round(sentence_start, 2)` and
`end = round(sentence_start + sentence_duration, 2)` with
`sentence_duration = (end - start) * sentence_ratio`, and `current_pos`
advances by the sentence length. -/
def apportionGo (start stop : ℚ) (total : ℕ) : ℕ → List (List Char) → List Sentence
  | _, [] => []
  | pos, s :: rest =>
    let dur := (stop - start) * ratioOf total s.length
    let sStart := rawStart start stop total pos
    ⟨s, rnd2 sStart, rnd2 (sStart + dur)⟩ :: apportionGo start stop total (pos + s.length) rest

/-- Lines 131-159 of `process_transcription` for one merged segment: if the
tokenizer returned exactly one sentence it inherits `[start, end]` unmodified
(lines 134-139); otherwise the span is apportioned by character length
(lines 141-159). -/
def apportion_sentences (start stop : ℚ) (sentences : List (List Char)) : List Sentence :=
  match sentences with
  | [s] => [⟨s, start, stop⟩]
  | l => apportionGo start stop (sentLens l) 0 l

theorem apportionGo_length (start stop : ℚ) (total : ℕ) :
    ∀ (l : List (List Char)) (pos : ℕ), (apportionGo start stop total pos l).length = l.length := by
  intro l
  induction l with
  | nil => intro pos; rfl
  | cons s rest ih => intro pos; simp [apportionGo, ih]

theorem rawStart_add (start stop : ℚ) (total : ℕ) (pos len : ℕ) :
    rawStart start stop total pos + (stop - start) * ratioOf total len =
      rawStart start stop total (pos + len) := by
  rw [rawStart, rawStart, ratioOf]
  by_cases h : 0 < total
  · rw [if_pos h, if_pos h, if_pos h]
    push_cast
    ring
  · rw [if_neg h, if_neg h, if_neg h]
    ring

theorem rawStart_mono (start stop : ℚ) (total : ℕ) (hss : start ≤ stop)
    {p q : ℕ} (hpq : p ≤ q) :
    rawStart start stop total p ≤ rawStart start stop total q := by
  rw [rawStart, rawStart]
  by_cases h : 0 < total
  · rw [if_pos h, if_pos h]
    have hT : (0 : ℚ) < (total : ℚ) := by exact_mod_cast h
    have h1 : ((p : ℚ) / (total : ℚ)) ≤ ((q : ℚ) / (total : ℚ)) :=
      (div_le_div_right hT).mpr (by exact_mod_cast hpq)
    have h2 : (0 : ℚ) ≤ stop - start := by linarith
    have h3 := mul_le_mul_of_nonneg_left h1 h2
    linarith
  · rw [if_neg h, if_neg h]

theorem apportionGo_get (start stop : ℚ) (total : ℕ) :
    ∀ (l : List (List Char)) (pos i : ℕ) (h : i < (apportionGo start stop total pos l).length)
      (h2 : i < l.length),
      (apportionGo start stop total pos l).get ⟨i, h⟩ =
        ⟨l.get ⟨i, h2⟩, rnd2 (rawStart start stop total (pos + sentLens (l.take i))),
          rnd2 (rawStart start stop total (pos + sentLens (l.take (i + 1))))⟩ := by
  intro l
  induction l with
  | nil => intro pos i h h2; exact absurd h2 (by simp)
  | cons s rest ih =>
    intro pos i h h2
    cases i with
    | zero =>
      have he : rawStart start stop total pos + (stop - start) * ratioOf total s.length =
          rawStart start stop total (pos + sentLens ((s :: rest).take 1)) := by
        rw [rawStart_add]
        congr 1
      show (⟨s, rnd2 (rawStart start stop total pos),
          rnd2 (rawStart start stop total pos + (stop - start) * ratioOf total s.length)⟩ :
            Sentence) = _
      rw [he]
      simp [sentLens]
    | succ i =>
      have hlen : i < (apportionGo start stop total (pos + s.length) rest).length := by
        rw [apportionGo_length]
        simpa using h2
      have h2r : i < rest.length := by simpa using h2
      have e1 : pos + s.length + sentLens (rest.take i) =
          pos + sentLens ((s :: rest).take (i + 1)) := by
        simp only [List.take_succ_cons, sentLens, List.map_cons, List.sum_cons]
        omega
      have e2 : pos + s.length + sentLens (rest.take (i + 1)) =
          pos + sentLens ((s :: rest).take (i + 1 + 1)) := by
        simp only [List.take_succ_cons, sentLens, List.map_cons, List.sum_cons]
        omega
      show (apportionGo start stop total (pos + s.length) rest).get ⟨i, hlen⟩ = _
      rw [ih (pos + s.length) i hlen h2r, e1, e2]
      rfl

theorem apportionGo_chain (start stop : ℚ) (total : ℕ) :
    ∀ (l : List (List Char)) (pos : ℕ),
      List.Chain' (fun a b : Sentence => a.stop = b.start)
        (apportionGo start stop total pos l) := by
  intro l
  induction l with
  | nil => intro pos; simp [apportionGo]
  | cons s rest ih =>
    intro pos
    show List.Chain' _
      (⟨s, rnd2 (rawStart start stop total pos),
          rnd2 (rawStart start stop total pos + (stop - start) * ratioOf total s.length)⟩ ::
        apportionGo start stop total (pos + s.length) rest)
    rw [List.chain'_cons']
    refine ⟨?_, ih _⟩
    intro b hb
    cases rest with
    | nil => simp [apportionGo] at hb
    | cons t ts =>
      simp only [apportionGo, List.head?_cons, Option.mem_def, Option.some.injEq] at hb
      rw [← hb]
      exact congrArg rnd2 (rawStart_add start stop total pos s.length)

theorem apportionGo_sum (start stop : ℚ) (total : ℕ) :
    ∀ (l : List (List Char)) (pos : ℕ), l ≠ [] →
      (((apportionGo start stop total pos l).map fun r => r.stop - r.start).sum) =
        rnd2 (rawStart start stop total (pos + sentLens l)) -
          rnd2 (rawStart start stop total pos) := by
  intro l
  induction l with
  | nil => intro pos h; exact absurd rfl h
  | cons s rest ih =>
    intro pos h
    cases rest with
    | nil =>
      simp only [apportionGo, List.map_cons, List.map_nil, List.sum_cons, List.sum_nil,
        add_zero]
      rw [rawStart_add]
      have e : pos + s.length = pos + sentLens [s] := by
        simp [sentLens]
      rw [e]
    | cons t ts =>
      have hne : (t :: ts) ≠ ([] : List (List Char)) := by simp
      simp only [apportionGo, List.map_cons, List.sum_cons]
      have ihx := ih (pos + s.length) hne
      simp only [apportionGo, List.map_cons, List.sum_cons] at ihx
      rw [ihx, rawStart_add]
      have e : pos + s.length + sentLens (t :: ts) = pos + sentLens (s :: t :: ts) := by
        simp only [sentLens, List.map_cons, List.sum_cons]
        omega
      rw [e]
      ring

theorem apportionGo_all_le (start stop : ℚ) (total : ℕ) (hss : start ≤ stop) :
    ∀ (l : List (List Char)) (pos : ℕ) (r : Sentence),
      r ∈ apportionGo start stop total pos l → r.start ≤ r.stop := by
  intro l
  induction l with
  | nil => intro pos r hr; simp [apportionGo] at hr
  | cons s rest ih =>
    intro pos r hr
    simp only [apportionGo, List.mem_cons] at hr
    rcases hr with hr | hr
    · rw [hr]
      show rnd2 (rawStart start stop total pos) ≤
        rnd2 (rawStart start stop total pos + (stop - start) * ratioOf total s.length)
      rw [rawStart_add]
      exact rnd2_mono (rawStart_mono start stop total hss (Nat.le_add_right pos s.length))
    · exact ih (pos + s.length) r hr

/-- Claim C2 (amended): for a merged segment `[start, end]` whose
tokenization yields the list `sents`, the code (a) keeps `[start, end]`
unmodified when there is exactly one sentence; (b) when there are `N > 1`
sentences and `Σ char_len > 0`, stores for sentence `i` the start
`round₂(start + (end-start)·Σ_{j<i}len_j/Σlen)` and the end
`round₂(start + (end-start)·Σ_{j≤i}len_j/Σlen)` (so the end is the rounded
cumulative start plus duration); (c) when `Σ char_len = 0`, stores
`round₂(start)` — the *rounded* segment start, not the segment start — as
every sentence's start and end, so all stored durations are 0; (d) the spans
are in order and non-overlapping; and (e) the stored durations sum to
`end - start` within 0.01 provided `Σ char_len > 0` or `N = 1` (not in the
degenerate case). -/
theorem C2_apportion (start stop : ℚ) (sents : List (List Char)) :
    (apportion_sentences start stop sents).length = sents.length ∧
    (∀ s, sents = [s] → apportion_sentences start stop sents = [⟨s, start, stop⟩]) ∧
    (2 ≤ sents.length → 0 < sentLens sents →
      ∀ i (h : i < (apportion_sentences start stop sents).length) (h2 : i < sents.length),
        (apportion_sentences start stop sents).get ⟨i, h⟩ =
          ⟨sents.get ⟨i, h2⟩,
            rnd2 (start + (stop - start) *
              ((sentLens (sents.take i) : ℚ) / (sentLens sents : ℚ))),
            rnd2 (start + (stop - start) *
              ((sentLens (sents.take (i + 1)) : ℚ) / (sentLens sents : ℚ)))⟩) ∧
    (2 ≤ sents.length → sentLens sents = 0 →
      ∀ i (h : i < (apportion_sentences start stop sents).length) (h2 : i < sents.length),
        (apportion_sentences start stop sents).get ⟨i, h⟩ =
          ⟨sents.get ⟨i, h2⟩, rnd2 start, rnd2 start⟩) ∧
    (start ≤ stop →
      (∀ r ∈ apportion_sentences start stop sents, r.start ≤ r.stop) ∧
      List.Chain' (fun a b : Sentence => a.stop ≤ b.start)
        (apportion_sentences start stop sents)) ∧
    ((0 < sentLens sents ∨ sents.length = 1) →
      |(((apportion_sentences start stop sents).map fun r => r.stop - r.start).sum) -
          (stop - start)| ≤ 1 / 100) := by
  rcases sents with _ | ⟨a, _ | ⟨b, t⟩⟩
  · refine ⟨rfl, ?_, ?_, ?_, ?_, ?_⟩
    · intro s hs; cases hs
    · intro hN; simp at hN
    · intro hN; simp at hN
    · intro hss
      exact ⟨by intro r hr; simp [apportion_sentences, apportionGo] at hr,
        by simp [apportion_sentences, apportionGo]⟩
    · intro hcase
      rcases hcase with hT | hN
      · simp [sentLens] at hT
      · simp at hN
  · refine ⟨rfl, ?_, ?_, ?_, ?_, ?_⟩
    · intro s hs
      cases hs
      rfl
    · intro hN; simp at hN
    · intro hN; simp at hN
    · intro hss
      constructor
      · intro r hr
        simp only [apportion_sentences, List.mem_singleton] at hr
        rw [hr]
        exact hss
      · simp [apportion_sentences]
    · intro hcase
      show |(stop - start + 0) - (stop - start)| ≤ 1 / 100
      simp
  · have hT100 : ∀ x : ℕ, rawStart start stop (sentLens (a :: b :: t)) x =
        if 0 < sentLens (a :: b :: t) then
          start + (stop - start) * ((x : ℚ) / (sentLens (a :: b :: t) : ℚ))
        else start := fun x => rfl
    refine ⟨?_, ?_, ?_, ?_, ?_, ?_⟩
    · exact apportionGo_length start stop _ _ 0
    · intro s hs; cases hs
    · intro hN hT i h h2
      show (apportionGo start stop (sentLens (a :: b :: t)) 0 (a :: b :: t)).get ⟨i, h⟩ = _
      rw [apportionGo_get start stop (sentLens (a :: b :: t)) (a :: b :: t) 0 i h h2]
      simp only [Nat.zero_add, rawStart]
      rw [if_pos hT, if_pos hT]
    · intro hN hT0 i h h2
      show (apportionGo start stop (sentLens (a :: b :: t)) 0 (a :: b :: t)).get ⟨i, h⟩ = _
      rw [apportionGo_get start stop (sentLens (a :: b :: t)) (a :: b :: t) 0 i h h2]
      simp only [rawStart, hT0]
      rw [if_neg (by omega), if_neg (by omega)]
    · intro hss
      constructor
      · intro r hr
        exact apportionGo_all_le start stop _ hss (a :: b :: t) 0 r hr
      · exact (apportionGo_chain start stop _ (a :: b :: t) 0).imp fun x y hxy => le_of_eq hxy
    · intro hcase
      have hT : 0 < sentLens (a :: b :: t) := by
        rcases hcase with hT | hN
        · exact hT
        · simp at hN
      have hTQ : ((sentLens (a :: b :: t) : ℚ)) ≠ 0 := by
        exact_mod_cast Nat.pos_iff_ne_zero.mp hT
      show |(((apportionGo start stop (sentLens (a :: b :: t)) 0 (a :: b :: t)).map
          fun r => r.stop - r.start).sum) - (stop - start)| ≤ 1 / 100
      rw [apportionGo_sum start stop _ (a :: b :: t) 0 (by simp)]
      have e0 : rawStart start stop (sentLens (a :: b :: t)) 0 = start := by
        rw [rawStart, if_pos hT]
        simp
      have e1 : rawStart start stop (sentLens (a :: b :: t))
          (0 + sentLens (a :: b :: t)) = stop := by
        rw [rawStart, if_pos hT, Nat.zero_add, div_self hTQ]
        ring
      rw [e0, e1]
      have h1 := abs_rnd2_sub stop
      have h2 := abs_rnd2_sub start
      rw [abs_le] at h1 h2 ⊢
      constructor <;> [linarith [h1.1, h2.2]; linarith [h1.2, h2.1]]

/-- Claim C2, counterexample to the claim as written, at the degenerate
input `start = 1/250`, `end = 1`, sentences `["", ""]` (two sentences,
`Σ char_len = 0`): the stored sentence starts are `round(0.004, 2) = 0`, not
the segment start `0.004`; and the stored durations sum to `0`, which is not
within `0.01` of `end - start = 0.996`. -/
theorem C2_counterexample :
    (apportion_sentences (1 / 250) 1 [[], []]).map Sentence.start = [0, 0] ∧
    (0 : ℚ) ≠ 1 / 250 ∧
    (((apportion_sentences (1 / 250) 1 [[], []]).map fun r => r.stop - r.start).sum) = 0 ∧
    ¬ |(0 : ℚ) - (1 - 1 / 250)| ≤ 1 / 100 := by
  refine ⟨?_, by norm_num, ?_, by rw [abs_le]; norm_num⟩ <;>
    norm_num [apportion_sentences, apportionGo, sentLens, rawStart, ratioOf, rnd2, rhe_eval]

/-- Witness for `C2_apportion` at `start = 0`, `end = 1`,
sentences `["a", "bc"]`. -/
theorem C2_witness :
    (apportion_sentences 0 1 [['a'], ['b', 'c']]).length = 2 ∧
    (apportion_sentences 0 1 [['a'], ['b', 'c']]).get ⟨1, by decide⟩ =
      ⟨['b', 'c'],
        rnd2 (0 + (1 - 0) *
          ((sentLens ([['a'], ['b', 'c']].take 1) : ℚ) / (sentLens [['a'], ['b', 'c']] : ℚ))),
        rnd2 (0 + (1 - 0) *
          ((sentLens ([['a'], ['b', 'c']].take 2) : ℚ) / (sentLens [['a'], ['b', 'c']] : ℚ)))⟩ ∧
    |(((apportion_sentences 0 1 [['a'], ['b', 'c']]).map fun r => r.stop - r.start).sum) -
        (1 - 0)| ≤ 1 / 100 := by
  have h := C2_apportion 0 1 [['a'], ['b', 'c']]
  exact ⟨h.1, h.2.2.1 (by decide) (by decide) 1 (by decide) (by decide),
    h.2.2.2.2.2 (Or.inl (by decide))⟩

/-! ## Keyframe/ASR alignment (`generate_structured_json.py`)

`match_keyframes_with_asr` (lines 81-119), `load_asr_data` (lines 58-79).
Keyframe and segment dicts become records; strings are `List Char`; float
timestamps are `ℚ`. -/

structure Keyframe where
  frame_number : ℕ
  timestamp : List Char
  timestamp_seconds : ℚ
  filename : List Char
  path : List Char
deriving DecidableEq, Repr

/-- A `{start, end, text}` segment dict as consumed by the aligner. -/
structure GSegment where
  start : ℚ
  stop : ℚ
  text : List Char
deriving DecidableEq, Repr

structure Slide where
  slide_number : ℕ
  timestamp : List Char
  timestamp_seconds : ℚ
  keyframe_filename : List Char
  keyframe_path : List Char
  content : List (List Char)
  title : List Char
  speaker_text : List Char
deriving DecidableEq, Repr

/-- The attachment test of lines 92-93:
`(segment['start'] <= timestamp_sec <= segment['end']) or
(abs(segment['start'] - timestamp_sec) <= 5)`. -/
def matchesKeyframe (t : ℚ) (s : GSegment) : Prop :=
  (s.start ≤ t ∧ t ≤ s.stop) ∨ |s.start - t| ≤ 5

instance (t : ℚ) : DecidablePred (matchesKeyframe t) := fun s => by
  unfold matchesKeyframe
  infer_instance

/-- The loop body of `match_keyframes_with_asr` (lines 85-117) for one
keyframe: collect the texts of the matching segments in input order, join
them with spaces for `speaker_text` (empty when nothing matched), and derive
the title from the first matched text by taking the prefix before the first
sentence-terminal mark (`re.split(r'[。！？.!?]', first_text)[0]`), stripped
and truncated to 50 characters; the title stays empty when nothing matched. -/
def buildSlide (asr_segments : List GSegment) (kf : Keyframe) : Slide :=
  let matching_texts :=
    (asr_segments.filter fun s => decide (matchesKeyframe kf.timestamp_seconds s)).map
      GSegment.text
  { slide_number := kf.frame_number + 1
    timestamp := kf.timestamp
    timestamp_seconds := kf.timestamp_seconds
    keyframe_filename := kf.filename
    keyframe_path := kf.path
    content := matching_texts
    title :=
      if matching_texts.isEmpty then []
      else (pyStrip ((matching_texts.headD []).takeWhile fun c => !(isMark c))).take 50
    speaker_text := if matching_texts.isEmpty then [] else joinSpace matching_texts }

/-- `match_keyframes_with_asr` (generate_structured_json.py lines 81-119):
one slide per keyframe, in keyframe order. -/
def match_keyframes_with_asr (keyframes : List Keyframe) (asr_segments : List GSegment) :
    List Slide :=
  keyframes.map (buildSlide asr_segments)

/-- A segment dict inside the `"segments"` key of the transcript JSON; every
field may be absent (`segment.get(..., default)` is used). -/
structure JsonSegment where
  start? : Option ℚ
  stop? : Option ℚ
  text? : Option (List Char)
deriving DecidableEq, Repr

/-- The distinguishable shapes of the transcript input as branched on by
`load_asr_data`: an unparsable file (`json.load` raises), a dict with a
`"segments"` key, a top-level JSON list (passed through unchanged), or any
other parsed value. -/
inductive AsrJson
  | malformed
  | dict (segments : List JsonSegment)
  | segList (segments : List GSegment)
  | other

/-- `load_asr_data` (generate_structured_json.py lines 58-79): the `except`
branch returns `[]` instead of raising; the dict branch extracts
`start`/`end` with default `0` and the stripped `text` with default `""`;
a top-level list is passed through; anything else yields `[]`. -/
def load_asr_data : AsrJson → List GSegment
  | .malformed => []
  | .dict segs =>
    segs.map fun s => ⟨s.start?.getD 0, s.stop?.getD 0, pyStrip (s.text?.getD [])⟩
  | .segList segs => segs
  | .other => []

/-- Claim C3: the aligner produces exactly one slide per keyframe; slide `i`
belongs to keyframe `i`; a segment's text is attached iff
`s.start ≤ t ≤ s.end ∨ |s.start - t| ≤ 5` (in input order); `speaker_text`
is the space-joined concatenation of the attached texts; and a keyframe with
no matching segment yields an empty `speaker_text` and empty `title`. -/
theorem C3_match (keyframes : List Keyframe) (asr_segments : List GSegment) :
    (match_keyframes_with_asr keyframes asr_segments).length = keyframes.length ∧
    (∀ i (h : i < (match_keyframes_with_asr keyframes asr_segments).length)
        (h2 : i < keyframes.length),
      ((match_keyframes_with_asr keyframes asr_segments).get ⟨i, h⟩).timestamp_seconds =
          (keyframes.get ⟨i, h2⟩).timestamp_seconds ∧
      ((match_keyframes_with_asr keyframes asr_segments).get ⟨i, h⟩).content =
          (asr_segments.filter fun s =>
              decide (matchesKeyframe (keyframes.get ⟨i, h2⟩).timestamp_seconds s)).map
            GSegment.text ∧
      ((match_keyframes_with_asr keyframes asr_segments).get ⟨i, h⟩).speaker_text =
          joinSpace (((match_keyframes_with_asr keyframes asr_segments).get ⟨i, h⟩).content) ∧
      (((match_keyframes_with_asr keyframes asr_segments).get ⟨i, h⟩).content = [] →
        ((match_keyframes_with_asr keyframes asr_segments).get ⟨i, h⟩).speaker_text = [] ∧
        ((match_keyframes_with_asr keyframes asr_segments).get ⟨i, h⟩).title = [])) := by
  refine ⟨by simp [match_keyframes_with_asr], ?_⟩
  intro i h h2
  have hget : (match_keyframes_with_asr keyframes asr_segments).get ⟨i, h⟩ =
      buildSlide asr_segments (keyframes.get ⟨i, h2⟩) := by
    simp [match_keyframes_with_asr, List.get_eq_getElem]
  rw [hget]
  set kf := keyframes.get ⟨i, h2⟩
  show (buildSlide asr_segments kf).timestamp_seconds = kf.timestamp_seconds ∧ _
  by_cases hm : ((asr_segments.filter fun s =>
      decide (matchesKeyframe kf.timestamp_seconds s)).map GSegment.text) = []
  · refine ⟨rfl, by simp [buildSlide], ?_, ?_⟩
    · simp [buildSlide, hm, joinSpace, List.intercalate]
    · intro _
      simp [buildSlide, hm]
  · refine ⟨rfl, by simp [buildSlide], ?_, ?_⟩
    · simp [buildSlide, hm, List.isEmpty_iff]
    · intro hc
      simp only [buildSlide] at hc
      exact absurd hc hm

/-- Witness for `C3_match`: one keyframe at `t = 12`, one segment spanning
`[10, 11]` (gap `1 ≤ 5`, so it attaches). -/
theorem C3_witness :
    (match_keyframes_with_asr [⟨0, ['0'], 12, ['f'], ['p']⟩] [⟨10, 11, ['h', 'i']⟩]).length = 1 ∧
    ((match_keyframes_with_asr [⟨0, ['0'], 12, ['f'], ['p']⟩] [⟨10, 11, ['h', 'i']⟩]).get
        ⟨0, by simp [match_keyframes_with_asr]⟩).content =
      (([⟨10, 11, ['h', 'i']⟩] : List GSegment).filter fun s =>
          decide (matchesKeyframe
            ((([⟨0, ['0'], 12, ['f'], ['p']⟩] : List Keyframe).get ⟨0, by simp⟩).timestamp_seconds)
            s)).map GSegment.text := by
  have h := C3_match [⟨0, ['0'], 12, ['f'], ['p']⟩] [⟨10, 11, ['h', 'i']⟩]
  exact ⟨h.1, (h.2 0 (by simp [match_keyframes_with_asr]) (by simp)).2.1⟩

/-- Claim C9: when the transcript file is unparsable, `load_asr_data`
returns `[]` instead of raising, and the alignment still produces exactly
one slide per keyframe, each with empty content, empty `speaker_text` and
empty `title`. -/
theorem C9_malformed_degrades (keyframes : List Keyframe) :
    load_asr_data .malformed = [] ∧
    (match_keyframes_with_asr keyframes (load_asr_data .malformed)).length =
      keyframes.length ∧
    ∀ sl ∈ match_keyframes_with_asr keyframes (load_asr_data .malformed),
      sl.content = [] ∧ sl.speaker_text = [] ∧ sl.title = [] := by
  refine ⟨rfl, by simp [match_keyframes_with_asr], ?_⟩
  intro sl hsl
  simp only [match_keyframes_with_asr, load_asr_data, List.mem_map] at hsl
  obtain ⟨kf, -, rfl⟩ := hsl
  exact ⟨rfl, rfl, rfl⟩

/-- Witness for `C9_malformed_degrades` at a one-keyframe list. -/
theorem C9_witness :
    load_asr_data .malformed = [] ∧
    (match_keyframes_with_asr [⟨3, ['t'], 50, ['f'], ['p']⟩] (load_asr_data .malformed)).length =
      ([⟨3, ['t'], 50, ['f'], ['p']⟩] : List Keyframe).length ∧
    ∀ sl ∈ match_keyframes_with_asr [⟨3, ['t'], 50, ['f'], ['p']⟩] (load_asr_data .malformed),
      sl.content = [] ∧ sl.speaker_text = [] ∧ sl.title = [] :=
  C9_malformed_degrades [⟨3, ['t'], 50, ['f'], ['p']⟩]

/-! ## Keyframe filename round-trip (`extractor.py` / `generate_structured_json.py`)

The extractor builds `f"keyframe_{timestamp_formatted}_{screenshot_count:04d}.jpg"`
(extractor.py lines 264-268) with `format_timestamp` (lines 330-344); the
downstream `extract_keyframe_info` re-parses it with the anchored regex
`keyframe_(\d{2})-(\d{2})-(\d{2})-(\d{3})_(\d+)\.jpg`
(generate_structured_json.py lines 36-54) and recovers
`frame_number = int(NNNN)` and
`timestamp_seconds = h*3600 + m*60 + s + ms/1000`. -/

/-- Decimal digits of `n`, most significant first (the digits of Python's
`"%d"` formatting). -/
def natDigits (n : ℕ) : List Char :=
  if n < 10 then [Nat.digitChar n]
  else natDigits (n / 10) ++ [Nat.digitChar (n % 10)]
termination_by n
decreasing_by exact Nat.div_lt_self (by omega) (by omega)

/-- Python `f"{n:0wd}"`: the decimal digits of `n`, left-padded with zeros to
a minimum width `w`. -/
def py0pad (w n : ℕ) : List Char :=
  List.replicate (w - (natDigits n).length) '0' ++ natDigits n

/-- `VideoKeyframeExtractor.format_timestamp` (extractor.py lines 330-344):
`HH-MM-SS-mmm` with `ms = int((seconds % 1) * 1000)`, `s = int(seconds)`,
`m, s = divmod(s, 60)`, `h, m = divmod(m, 60)`.  (`Int.toNat` only matters
for negative timestamps, which the extractor never produces.) -/
def format_timestamp (t : ℚ) : List Char :=
  let ms := (pyInt (pyMod1 t * 1000)).toNat
  let s0 := (pyInt t).toNat
  py0pad 2 (s0 / 60 / 60) ++
    '-' :: (py0pad 2 (s0 / 60 % 60) ++
      '-' :: (py0pad 2 (s0 % 60) ++ '-' :: py0pad 3 ms))

/-- The keyframe filename of extractor.py line 267:
`f"keyframe_{timestamp_formatted}_{screenshot_count:04d}.jpg"`. -/
def mkKeyframeFilename (t : ℚ) (n : ℕ) : List Char :=
  ("keyframe_".toList) ++
    (format_timestamp t ++ '_' :: (py0pad 4 n ++ ('.' :: 'j' :: 'p' :: 'g' :: [])))

/-- Consume the literal `p` from the front of the input (part of matching
the regex of generate_structured_json.py line 40). -/
def dropLit : List Char → List Char → Option (List Char)
  | [], l => some l
  | _ :: _, [] => none
  | c :: p, x :: l => if x = c then dropLit p l else none

/-- Numeric value of a decimal digit character. -/
def digitVal (c : Char) : ℕ := c.toNat - 48

/-- `int(...)` of a digit string, as a fold. -/
def digitsVal (l : List Char) : ℕ := l.foldl (fun a c => 10 * a + digitVal c) 0

/-- Consume exactly `k` digits (a `\d{k}` group) and return their value. -/
def readFixed : ℕ → ℕ → List Char → Option (ℕ × List Char)
  | 0, acc, l => some (acc, l)
  | _ + 1, _, [] => none
  | k + 1, acc, c :: l => if c.isDigit then readFixed k (10 * acc + digitVal c) l else none

/-- Consume a maximal non-empty digit run (the `(\d+)` group followed by the
non-digit `\.`; greedy matching is exact here because backtracking would put
a digit where the pattern requires `.`). -/
def readDigits1 (l : List Char) : Option (ℕ × List Char) :=
  let ds := l.takeWhile Char.isDigit
  if ds.isEmpty then none else some (digitsVal ds, l.drop ds.length)

/-- The regex match of `extract_keyframe_info`
(generate_structured_json.py lines 40-46), returning
`(frame_number, timestamp_seconds)`: `re.match` anchors at the start and a
trailing remainder after `.jpg` is allowed.  Returns `none` when the
pattern does not match. -/
def parse_keyframe_filename (l : List Char) : Option (ℕ × ℚ) :=
  (dropLit ("keyframe_".toList) l).bind fun l1 =>
  (readFixed 2 0 l1).bind fun p1 =>
  (dropLit ['-'] p1.2).bind fun l2 =>
  (readFixed 2 0 l2).bind fun p2 =>
  (dropLit ['-'] p2.2).bind fun l3 =>
  (readFixed 2 0 l3).bind fun p3 =>
  (dropLit ['-'] p3.2).bind fun l4 =>
  (readFixed 3 0 l4).bind fun p4 =>
  (dropLit ['_'] p4.2).bind fun l5 =>
  (readDigits1 l5).bind fun p5 =>
  (dropLit ('.' :: 'j' :: 'p' :: 'g' :: []) p5.2).map fun _ =>
    (p5.1, (p1.1 : ℚ) * 3600 + (p2.1 : ℚ) * 60 + (p3.1 : ℚ) + (p4.1 : ℚ) / 1000)

theorem digitChar_isDigit : ∀ d : ℕ, d < 10 →
    (Nat.digitChar d).isDigit = true ∧ digitVal (Nat.digitChar d) = d := by
  decide

theorem dropLit_self : ∀ (p rest : List Char), dropLit p (p ++ rest) = some rest := by
  intro p
  induction p with
  | nil => intro rest; rfl
  | cons c cs ih =>
    intro rest
    show dropLit (c :: cs) (c :: (cs ++ rest)) = some rest
    rw [dropLit]
    rw [if_pos rfl]
    exact ih rest

theorem readFixed_append : ∀ (ds : List Char) (acc : ℕ) (rest : List Char),
    (∀ c ∈ ds, c.isDigit = true) →
    readFixed ds.length acc (ds ++ rest) =
      some (ds.foldl (fun a c => 10 * a + digitVal c) acc, rest) := by
  intro ds
  induction ds with
  | nil => intro acc rest h; rfl
  | cons c cs ih =>
    intro acc rest h
    show readFixed (cs.length + 1) acc (c :: (cs ++ rest)) = _
    rw [readFixed, if_pos (h c (by simp))]
    rw [ih (10 * acc + digitVal c) rest fun d hd => h d (by simp [hd])]
    rfl

theorem natDigits_ne_nil (n : ℕ) : natDigits n ≠ [] := by
  rw [natDigits]
  split
  · simp
  · simp

theorem natDigits_digits : ∀ n : ℕ, ∀ c ∈ natDigits n, c.isDigit = true := by
  intro n
  induction n using Nat.strong_induction_on with
  | _ n ih =>
    intro c hc
    rw [natDigits] at hc
    split at hc
    · next h =>
      simp only [List.mem_singleton] at hc
      rw [hc]
      exact (digitChar_isDigit n h).1
    · next h =>
      simp only [List.mem_append, List.mem_singleton] at hc
      rcases hc with hc | hc
      · exact ih (n / 10) (Nat.div_lt_self (by omega) (by omega)) c hc
      · rw [hc]
        exact (digitChar_isDigit (n % 10) (by omega)).1

theorem natDigits_length_le : ∀ (w n : ℕ), 0 < w → n < 10 ^ w →
    (natDigits n).length ≤ w := by
  intro w
  induction w with
  | zero => intro n h; omega
  | succ w ih =>
    intro n hpos hn
    rw [natDigits]
    split
    · simp
    · next h =>
      have hw : 0 < w := by
        by_contra hw0
        have : w = 0 := by omega
        subst this
        simp at hn
        omega
      have hdiv : n / 10 < 10 ^ w := by
        rw [Nat.div_lt_iff_lt_mul (by omega)]
        calc n < 10 ^ (w + 1) := hn
          _ = 10 ^ w * 10 := by ring
      have := ih (n / 10) hw hdiv
      simp only [List.length_append, List.length_singleton]
      omega

theorem foldlDigits_natDigits : ∀ n acc : ℕ,
    (natDigits n).foldl (fun a c => 10 * a + digitVal c) acc = acc * 10 ^ (natDigits n).length + n := by
  intro n
  induction n using Nat.strong_induction_on with
  | _ n ih =>
    intro acc
    rw [natDigits]
    split
    · next h =>
      simp only [List.foldl_cons, List.foldl_nil, List.length_singleton]
      rw [(digitChar_isDigit n h).2]
      ring
    · next h =>
      rw [List.foldl_append]
      rw [ih (n / 10) (Nat.div_lt_self (by omega) (by omega)) acc]
      simp only [List.foldl_cons, List.foldl_nil, List.length_append, List.length_singleton]
      rw [(digitChar_isDigit (n % 10) (by omega)).2]
      have : acc * 10 ^ ((natDigits (n / 10)).length + 1) =
          acc * 10 ^ (natDigits (n / 10)).length * 10 := by ring
      rw [this]
      omega

theorem digitsVal_natDigits (n : ℕ) : digitsVal (natDigits n) = n := by
  rw [digitsVal, foldlDigits_natDigits]
  ring

theorem py0pad_digits (w n : ℕ) : ∀ c ∈ py0pad w n, c.isDigit = true := by
  intro c hc
  rw [py0pad, List.mem_append] at hc
  rcases hc with hc | hc
  · rw [List.eq_of_mem_replicate hc]
    decide
  · exact natDigits_digits n c hc

theorem py0pad_length {w n : ℕ} (hw : 0 < w) (hn : n < 10 ^ w) :
    (py0pad w n).length = w := by
  have h1 := natDigits_length_le w n hw hn
  have h2 : natDigits n ≠ [] := natDigits_ne_nil n
  have h3 : 0 < (natDigits n).length := List.length_pos.mpr h2
  rw [py0pad, List.length_append, List.length_replicate]
  omega

theorem digitsVal_py0pad (w n : ℕ) : digitsVal (py0pad w n) = n := by
  rw [py0pad, digitsVal, List.foldl_append]
  have hz : ∀ k : ℕ, (List.replicate k '0').foldl (fun a c => 10 * a + digitVal c) 0 = 0 := by
    intro k
    induction k with
    | zero => rfl
    | succ k ih =>
      rw [List.replicate_succ, List.foldl_cons]
      have : 10 * 0 + digitVal '0' = 0 := by decide
      rw [this, ih]
  rw [hz]
  exact digitsVal_natDigits n

theorem takeWhile_digits_append (ds : List Char) (hds : ∀ c ∈ ds, c.isDigit = true)
    {x : Char} (hx : x.isDigit = false) (tail : List Char) :
    (ds ++ x :: tail).takeWhile Char.isDigit = ds := by
  induction ds with
  | nil => simp [List.takeWhile_cons, hx]
  | cons c cs ih =>
    rw [List.cons_append, List.takeWhile_cons, hds c (by simp), if_pos rfl,
      ih fun d hd => hds d (by simp [hd])]

theorem readDigits1_pad (ds : List Char) (hne : ds ≠ [])
    (hds : ∀ c ∈ ds, c.isDigit = true) {x : Char} (hx : x.isDigit = false)
    (tail : List Char) :
    readDigits1 (ds ++ x :: tail) = some (digitsVal ds, x :: tail) := by
  rw [readDigits1]
  simp only [takeWhile_digits_append ds hds hx tail]
  rw [if_neg (by simpa [List.isEmpty_iff] using hne)]
  rw [List.drop_left]

theorem py0pad_ne_nil (w k : ℕ) : py0pad w k ≠ [] := by
  rw [py0pad]
  intro h
  rw [List.append_eq_nil] at h
  exact natDigits_ne_nil k h.2

theorem dropLit_cons (c : Char) (rest : List Char) : dropLit [c] (c :: rest) = some rest := by
  rw [dropLit, if_pos rfl]
  rfl

theorem readFixed2_pad {k : ℕ} (hk : k < 100) (rest : List Char) :
    readFixed 2 0 (py0pad 2 k ++ rest) = some (k, rest) := by
  have h100 : (10 : ℕ) ^ 2 = 100 := by norm_num
  have hl : (py0pad 2 k).length = 2 := py0pad_length (by omega) (by rw [h100]; exact hk)
  have hv := digitsVal_py0pad 2 k
  rw [digitsVal] at hv
  nth_rewrite 1 [← hl]
  rw [readFixed_append _ 0 rest (py0pad_digits 2 k), hv]

theorem readFixed3_pad {k : ℕ} (hk : k < 1000) (rest : List Char) :
    readFixed 3 0 (py0pad 3 k ++ rest) = some (k, rest) := by
  have h1000 : (10 : ℕ) ^ 3 = 1000 := by norm_num
  have hl : (py0pad 3 k).length = 3 := py0pad_length (by omega) (by rw [h1000]; exact hk)
  have hv := digitsVal_py0pad 3 k
  rw [digitsVal] at hv
  nth_rewrite 1 [← hl]
  rw [readFixed_append _ 0 rest (py0pad_digits 3 k), hv]

/-- Claim C8: for `0 ≤ t < 360000` and `n < 10000`, the filename built by
the extractor matches the downstream regex (the parse succeeds), the parse
recovers the sequence number `n` exactly, and the recovered
`timestamp_seconds` is `t` truncated to whole milliseconds, hence within
`0.001` of `t`. -/
theorem C8_roundtrip (t : ℚ) (n : ℕ) (ht0 : 0 ≤ t) (ht : t < 360000) (_hn : n < 10000) :
    parse_keyframe_filename (mkKeyframeFilename t n) =
      some (n, ((⌊t * 1000⌋ : ℤ) : ℚ) / 1000) ∧
    |((⌊t * 1000⌋ : ℤ) : ℚ) / 1000 - t| ≤ 1 / 1000 := by
  have hpyint : pyInt t = ⌊t⌋ := if_pos ht0
  have hfl0 : 0 ≤ ⌊t⌋ := Int.floor_nonneg.mpr ht0
  have hs0v : (((pyInt t).toNat : ℤ)) = ⌊t⌋ := by
    rw [hpyint]
    exact Int.toNat_of_nonneg hfl0
  have hs0lt : (pyInt t).toNat < 360000 := by
    have h1 : ((⌊t⌋ : ℚ)) ≤ t := Int.floor_le t
    have h2 : (⌊t⌋ : ℚ) < 360000 := lt_of_le_of_lt h1 ht
    have h3 : ⌊t⌋ < 360000 := by exact_mod_cast h2
    omega
  have hmod0 : 0 ≤ pyMod1 t := by
    rw [pyMod1]
    have := Int.floor_le t
    linarith
  have hmod1 : pyMod1 t < 1 := by
    rw [pyMod1]
    have := Int.lt_floor_add_one t
    linarith
  have hmspy : pyInt (pyMod1 t * 1000) = ⌊pyMod1 t * 1000⌋ := if_pos (by linarith)
  have hmsfl0 : 0 ≤ ⌊pyMod1 t * 1000⌋ := Int.floor_nonneg.mpr (by linarith)
  have hmsv : (((pyInt (pyMod1 t * 1000)).toNat : ℤ)) = ⌊pyMod1 t * 1000⌋ := by
    rw [hmspy]
    exact Int.toNat_of_nonneg hmsfl0
  have hmslt : (pyInt (pyMod1 t * 1000)).toNat < 1000 := by
    have h1 : ((⌊pyMod1 t * 1000⌋ : ℚ)) ≤ pyMod1 t * 1000 := Int.floor_le _
    have h2 : pyMod1 t * 1000 < 1000 := by linarith
    have h3 : (⌊pyMod1 t * 1000⌋ : ℚ) < 1000 := lt_of_le_of_lt h1 h2
    have h4 : ⌊pyMod1 t * 1000⌋ < 1000 := by exact_mod_cast h3
    omega
  set s0 : ℕ := (pyInt t).toNat with hs0def
  set msN : ℕ := (pyInt (pyMod1 t * 1000)).toNat with hmsdef
  have hfloor1000 : ⌊t * 1000⌋ = ⌊pyMod1 t * 1000⌋ + ⌊t⌋ * 1000 := by
    have harg : t * 1000 = pyMod1 t * 1000 + ((⌊t⌋ * 1000 : ℤ) : ℚ) := by
      rw [pyMod1]
      push_cast
      ring
    rw [harg, Int.floor_add_int]
  have hvalue : ((s0 / 60 / 60 : ℕ) : ℚ) * 3600 + ((s0 / 60 % 60 : ℕ) : ℚ) * 60 +
      ((s0 % 60 : ℕ) : ℚ) + ((msN : ℕ) : ℚ) / 1000 = ((⌊t * 1000⌋ : ℤ) : ℚ) / 1000 := by
    have hsplit : s0 / 60 / 60 * 3600 + s0 / 60 % 60 * 60 + s0 % 60 = s0 := by omega
    have hcast : ((s0 / 60 / 60 : ℕ) : ℚ) * 3600 + ((s0 / 60 % 60 : ℕ) : ℚ) * 60 +
        ((s0 % 60 : ℕ) : ℚ) = ((s0 : ℕ) : ℚ) := by
      push_cast
      exact_mod_cast congrArg (fun k : ℕ => ((k : ℕ) : ℚ)) hsplit
    rw [hcast, hfloor1000]
    have hsq : ((s0 : ℕ) : ℚ) = ((⌊t⌋ : ℤ) : ℚ) := by exact_mod_cast hs0v
    have hmq : ((msN : ℕ) : ℚ) = ((⌊pyMod1 t * 1000⌋ : ℤ) : ℚ) := by exact_mod_cast hmsv
    rw [hsq, hmq]
    push_cast
    ring
  constructor
  · simp only [mkKeyframeFilename, format_timestamp, parse_keyframe_filename, ← hs0def,
      ← hmsdef, List.append_assoc, List.cons_append]
    rw [dropLit_self]
    simp only [Option.some_bind]
    rw [readFixed2_pad (by omega) _]
    simp only [Option.some_bind]
    rw [dropLit_cons]
    simp only [Option.some_bind]
    rw [readFixed2_pad (by omega) _]
    simp only [Option.some_bind]
    rw [dropLit_cons]
    simp only [Option.some_bind]
    rw [readFixed2_pad (by omega) _]
    simp only [Option.some_bind]
    rw [dropLit_cons]
    simp only [Option.some_bind]
    rw [readFixed3_pad (by omega) _]
    simp only [Option.some_bind]
    rw [dropLit_cons]
    simp only [Option.some_bind]
    rw [readDigits1_pad (py0pad 4 n) (py0pad_ne_nil 4 n) (py0pad_digits 4 n) (by decide) _]
    simp only [Option.some_bind, digitsVal_py0pad]
    have hjpg : dropLit ('.' :: 'j' :: 'p' :: 'g' :: []) ('.' :: 'j' :: 'p' :: 'g' :: []) =
        some [] := by
      have := dropLit_self ('.' :: 'j' :: 'p' :: 'g' :: []) []
      rwa [List.append_nil] at this
    rw [hjpg]
    simp only [Option.map_some']
    rw [Option.some.injEq, Prod.mk.injEq]
    exact ⟨rfl, hvalue⟩
  · have h1 : ((⌊t * 1000⌋ : ℤ) : ℚ) ≤ t * 1000 := Int.floor_le _
    have h2 : t * 1000 < ((⌊t * 1000⌋ : ℤ) : ℚ) + 1 := Int.lt_floor_add_one _
    rw [abs_le]
    constructor <;> linarith

/-- Witness for `C8_roundtrip` at `t = 3661.5` seconds and `n = 7`. -/
theorem C8_witness :
    parse_keyframe_filename (mkKeyframeFilename (7323 / 2) 7) =
      some (7, ((⌊(7323 / 2 : ℚ) * 1000⌋ : ℤ) : ℚ) / 1000) ∧
    |((⌊(7323 / 2 : ℚ) * 1000⌋ : ℤ) : ℚ) / 1000 - 7323 / 2| ≤ 1 / 1000 :=
  C8_roundtrip (7323 / 2) 7 (by norm_num) (by norm_num) (by norm_num)

/-! ## Keyframe extraction (`extractor.py`, `VideoKeyframeExtractor`)

Frames and their pixel contents are external data (the decode service of the
spec): a video is a partial read function `ℕ → Option F` (a `cap.read` at a
seeked position, `none` on a failed read) and `calculate_frame_difference`
(pure OpenCV arithmetic on two frames) is an abstract `diff : F → F → ℝ`.
Scores and the threshold are `ℝ` because `numpy`'s standard deviation takes
a square root; frame counts and positions are `ℕ`, fps and timestamps `ℚ`. -/

/-- `np.mean` of a list of floats. -/
noncomputable def npMean (l : List ℝ) : ℝ := l.sum / l.length

/-- `np.std` of a list of floats: the population standard deviation
`sqrt(mean((x - mean)²))`. -/
noncomputable def npStd (l : List ℝ) : ℝ :=
  Real.sqrt (((l.map fun d => (d - npMean l) ^ 2).sum) / l.length)

/-- The sampling loop of `calculate_adaptive_threshold` (extractor.py lines
99-114): `for i in range(sample_count + 1)`, seek to `i * interval`, stop at
the first failed read, and record the difference to the previous read frame
when there is one. -/
def sampleDiffsGo {F : Type} (read : ℕ → Option F) (diff : F → F → ℝ) (interval : ℕ) :
    ℕ → ℕ → Option F → List ℝ
  | _, 0, _ => []
  | i, remaining + 1, prev =>
    match read (i * interval) with
    | none => []
    | some frame =>
      match prev with
      | none => sampleDiffsGo read diff interval (i + 1) remaining (some frame)
      | some pf => diff pf frame :: sampleDiffsGo read diff interval (i + 1) remaining (some frame)

/-- The `differences` list collected by `calculate_adaptive_threshold`. -/
def sampleDiffs {F : Type} (read : ℕ → Option F) (diff : F → F → ℝ)
    (interval sample_count : ℕ) : List ℝ :=
  sampleDiffsGo read diff interval 0 (sample_count + 1) none

/-- `VideoKeyframeExtractor.calculate_adaptive_threshold` (extractor.py lines
73-134): default `0.1` for a video of at most one frame or when no sampled
pair was read; otherwise `max(0.05, min(mean + 0.5*std, 0.3))` over the
sampled consecutive differences.  `interval = max(1, frame_count // (sample_count + 1))`. -/
noncomputable def calculate_adaptive_threshold {F : Type} (frameCount : ℕ)
    (read : ℕ → Option F) (diff : F → F → ℝ) (sample_count : ℕ := 10) : ℝ :=
  if frameCount ≤ 1 then 0.1
  else
    let interval := max 1 (frameCount / (sample_count + 1))
    let differences := sampleDiffs read diff interval sample_count
    if differences.isEmpty then 0.1
    else max 0.05 (min (npMean differences + 0.5 * npStd differences) 0.3)

/-- One keyframe record of `extract_keyframes` (extractor.py lines 274-280,
299-305); the path/formatted-string fields are presentation copies of
`timestamp` and the sequence number (their byte format is modelled by
`mkKeyframeFilename`) and are omitted here. -/
structure KeyRecord where
  frame_number : ℕ
  timestamp : ℚ
  difference : ℝ

/-- The `while frame_position < frame_count and screenshot_count <
max_screenshots` loop of `extract_keyframes` (extractor.py lines 243-315):
a failed read breaks; the first read frame is always emitted with difference
`0.0`; a later frame is emitted iff its difference to the previously *read*
frame exceeds the threshold; the previous-frame slot always updates; the
position advances by `interval` (which the caller made at least 1, carried
here as the hypothesis `hI` for termination). -/
noncomputable def extractLoop {F : Type} (read : ℕ → Option F) (diff : F → F → ℝ)
    (threshold : ℝ) (fps : ℚ) (frameCount interval maxShots : ℕ) (hI : 0 < interval) :
    ℕ → Option F → ℕ → List KeyRecord
  | pos, prev, shots =>
    if h : pos < frameCount ∧ shots < maxShots then
      match read pos with
      | none => []
      | some frame =>
        match prev with
        | none =>
          ⟨pos, (pos : ℚ) / fps, 0⟩ ::
            extractLoop read diff threshold fps frameCount interval maxShots hI
              (pos + interval) (some frame) (shots + 1)
        | some pf =>
          if diff pf frame > threshold then
            ⟨pos, (pos : ℚ) / fps, diff pf frame⟩ ::
              extractLoop read diff threshold fps frameCount interval maxShots hI
                (pos + interval) (some frame) (shots + 1)
          else
            extractLoop read diff threshold fps frameCount interval maxShots hI
              (pos + interval) (some frame) shots
    else []
termination_by pos _ _ => frameCount - pos
decreasing_by all_goals omega

/-- `VideoKeyframeExtractor.extract_keyframes` (extractor.py lines 178-328):
fps defaults to 30 when non-positive (lines 208-210), the threshold comes
from `calculate_adaptive_threshold` on the same video (line 218),
`frame_interval = max(1, int(capture_interval * fps))` (lines 222-224), and
the scan starts at position 0 with an empty previous-frame slot. -/
noncomputable def extract_keyframes {F : Type} (read : ℕ → Option F) (diff : F → F → ℝ)
    (fps0 capture_interval : ℚ) (frameCount maxShots : ℕ) : List KeyRecord :=
  let fps := if fps0 ≤ 0 then 30 else fps0
  let threshold := calculate_adaptive_threshold frameCount read diff 10
  let frame_interval := (max 1 (pyInt (capture_interval * fps))).toNat
  extractLoop read diff threshold fps frameCount frame_interval maxShots
    (by omega) 0 none 0

theorem extractLoop_mem_pos_le {F : Type} (read : ℕ → Option F) (diff : F → F → ℝ)
    (threshold : ℝ) (fps : ℚ) (frameCount interval maxShots : ℕ) (hI : 0 < interval) :
    ∀ (pos : ℕ) (prev : Option F) (shots : ℕ),
      ∀ r ∈ extractLoop read diff threshold fps frameCount interval maxShots hI pos prev shots,
        pos ≤ r.frame_number := by
  intro pos prev shots
  induction pos, prev, shots using extractLoop.induct read diff threshold fps frameCount
    interval maxShots hI with
  | case1 pos prev shots h hread =>
    intro r hr
    rw [extractLoop, dif_pos h, hread] at hr
    simp at hr
  | case2 pos shots h pf hread ih =>
    intro r hr
    rw [extractLoop, dif_pos h, hread] at hr
    rcases List.mem_cons.mp hr with hr | hr
    · rw [hr]
    · have := ih r hr
      omega
  | case3 pos shots h pf hread pf1 hd ih =>
    intro r hr
    rw [extractLoop, dif_pos h, hread] at hr
    rw [show (match some pf1 with
        | none =>
          (⟨pos, (pos : ℚ) / fps, 0⟩ : KeyRecord) ::
            extractLoop read diff threshold fps frameCount interval maxShots hI
              (pos + interval) (some pf) (shots + 1)
        | some pf0 =>
          if diff pf0 pf > threshold then
            (⟨pos, (pos : ℚ) / fps, diff pf0 pf⟩ : KeyRecord) ::
              extractLoop read diff threshold fps frameCount interval maxShots hI
                (pos + interval) (some pf) (shots + 1)
          else
            extractLoop read diff threshold fps frameCount interval maxShots hI
              (pos + interval) (some pf) shots) =
        if diff pf1 pf > threshold then
            (⟨pos, (pos : ℚ) / fps, diff pf1 pf⟩ : KeyRecord) ::
              extractLoop read diff threshold fps frameCount interval maxShots hI
                (pos + interval) (some pf) (shots + 1)
          else
            extractLoop read diff threshold fps frameCount interval maxShots hI
              (pos + interval) (some pf) shots from rfl, if_pos hd] at hr
    rcases List.mem_cons.mp hr with hr | hr
    · rw [hr]
    · have := ih r hr
      omega
  | case4 pos shots h pf hread pf1 hd ih =>
    intro r hr
    rw [extractLoop, dif_pos h, hread] at hr
    have := ih r (by
      rw [show (match some pf1 with
          | none =>
            (⟨pos, (pos : ℚ) / fps, 0⟩ : KeyRecord) ::
              extractLoop read diff threshold fps frameCount interval maxShots hI
                (pos + interval) (some pf) (shots + 1)
          | some pf0 =>
            if diff pf0 pf > threshold then
              (⟨pos, (pos : ℚ) / fps, diff pf0 pf⟩ : KeyRecord) ::
                extractLoop read diff threshold fps frameCount interval maxShots hI
                  (pos + interval) (some pf) (shots + 1)
            else
              extractLoop read diff threshold fps frameCount interval maxShots hI
                (pos + interval) (some pf) shots) =
          if diff pf1 pf > threshold then
              (⟨pos, (pos : ℚ) / fps, diff pf1 pf⟩ : KeyRecord) ::
                extractLoop read diff threshold fps frameCount interval maxShots hI
                  (pos + interval) (some pf) (shots + 1)
            else
              extractLoop read diff threshold fps frameCount interval maxShots hI
                (pos + interval) (some pf) shots from rfl, if_neg hd] at hr
      exact hr)
    omega
  | case5 pos prev shots h =>
    intro r hr
    rw [extractLoop, dif_neg h] at hr
    simp at hr

/-! ### Unfolding equations for the scan loop -/

theorem extractLoop_eq_stop {F : Type} {read : ℕ → Option F} {diff : F → F → ℝ}
    {threshold : ℝ} {fps : ℚ} {frameCount interval maxShots : ℕ} {hI : 0 < interval}
    {pos shots : ℕ} (prev : Option F) (h : ¬(pos < frameCount ∧ shots < maxShots)) :
    extractLoop read diff threshold fps frameCount interval maxShots hI pos prev shots = [] := by
  rw [extractLoop, dif_neg h]

theorem extractLoop_eq_readfail {F : Type} {read : ℕ → Option F} {diff : F → F → ℝ}
    {threshold : ℝ} {fps : ℚ} {frameCount interval maxShots : ℕ} {hI : 0 < interval}
    {pos shots : ℕ} (prev : Option F) (h : pos < frameCount ∧ shots < maxShots)
    (hread : read pos = none) :
    extractLoop read diff threshold fps frameCount interval maxShots hI pos prev shots = [] := by
  rw [extractLoop, dif_pos h, hread]

theorem extractLoop_eq_first {F : Type} {read : ℕ → Option F} {diff : F → F → ℝ}
    {threshold : ℝ} {fps : ℚ} {frameCount interval maxShots : ℕ} {hI : 0 < interval}
    {pos shots : ℕ} {f : F} (h : pos < frameCount ∧ shots < maxShots)
    (hread : read pos = some f) :
    extractLoop read diff threshold fps frameCount interval maxShots hI pos none shots =
      ⟨pos, (pos : ℚ) / fps, 0⟩ ::
        extractLoop read diff threshold fps frameCount interval maxShots hI
          (pos + interval) (some f) (shots + 1) := by
  rw [extractLoop, dif_pos h, hread]

theorem extractLoop_eq_emit {F : Type} {read : ℕ → Option F} {diff : F → F → ℝ}
    {threshold : ℝ} {fps : ℚ} {frameCount interval maxShots : ℕ} {hI : 0 < interval}
    {pos shots : ℕ} {f pf : F} (h : pos < frameCount ∧ shots < maxShots)
    (hread : read pos = some f) (hd : diff pf f > threshold) :
    extractLoop read diff threshold fps frameCount interval maxShots hI pos (some pf) shots =
      ⟨pos, (pos : ℚ) / fps, diff pf f⟩ ::
        extractLoop read diff threshold fps frameCount interval maxShots hI
          (pos + interval) (some f) (shots + 1) := by
  rw [extractLoop, dif_pos h, hread]
  exact if_pos hd

theorem extractLoop_eq_skip {F : Type} {read : ℕ → Option F} {diff : F → F → ℝ}
    {threshold : ℝ} {fps : ℚ} {frameCount interval maxShots : ℕ} {hI : 0 < interval}
    {pos shots : ℕ} {f pf : F} (h : pos < frameCount ∧ shots < maxShots)
    (hread : read pos = some f) (hd : ¬diff pf f > threshold) :
    extractLoop read diff threshold fps frameCount interval maxShots hI pos (some pf) shots =
      extractLoop read diff threshold fps frameCount interval maxShots hI
        (pos + interval) (some f) shots := by
  rw [extractLoop, dif_pos h, hread]
  exact if_neg hd

/-- The clamp keeps every adaptive threshold inside `[0.05, 0.3]`; the
fail-soft default `0.1` is inside too. -/
theorem adaptiveThreshold_range {F : Type} (frameCount : ℕ) (read : ℕ → Option F)
    (diff : F → F → ℝ) (sample_count : ℕ) :
    (0.05 : ℝ) ≤ calculate_adaptive_threshold frameCount read diff sample_count ∧
    calculate_adaptive_threshold frameCount read diff sample_count ≤ 0.3 := by
  simp only [calculate_adaptive_threshold]
  split_ifs with h1 h2
  · norm_num
  · norm_num
  · exact ⟨le_max_left _ _, max_le (by norm_num) (min_le_right _ _)⟩

/-- Claim C4: `calculate_adaptive_threshold` always returns a value in
`[0.05, 0.3]`; with at most one frame, or when no consecutive sampled pair
could be read, it returns exactly the default `0.1` (total function, no
error); otherwise it returns `mean + 0.5·std` of the sampled differences,
clamped to `[0.05, 0.3]`. -/
theorem C4_adaptive_threshold {F : Type} (frameCount : ℕ) (read : ℕ → Option F)
    (diff : F → F → ℝ) (sample_count : ℕ) :
    ((0.05 : ℝ) ≤ calculate_adaptive_threshold frameCount read diff sample_count ∧
      calculate_adaptive_threshold frameCount read diff sample_count ≤ 0.3) ∧
    (frameCount ≤ 1 → calculate_adaptive_threshold frameCount read diff sample_count = 0.1) ∧
    ((sampleDiffs read diff (max 1 (frameCount / (sample_count + 1))) sample_count).isEmpty =
        true →
      calculate_adaptive_threshold frameCount read diff sample_count = 0.1) ∧
    (1 < frameCount →
      (sampleDiffs read diff (max 1 (frameCount / (sample_count + 1))) sample_count).isEmpty =
        false →
      calculate_adaptive_threshold frameCount read diff sample_count =
        max 0.05
          (min (npMean (sampleDiffs read diff (max 1 (frameCount / (sample_count + 1)))
                sample_count) +
              0.5 * npStd (sampleDiffs read diff (max 1 (frameCount / (sample_count + 1)))
                sample_count))
            0.3)) := by
  refine ⟨adaptiveThreshold_range frameCount read diff sample_count, ?_, ?_, ?_⟩
  · intro h1
    simp only [calculate_adaptive_threshold]
    rw [if_pos h1]
  · intro hemp
    simp only [calculate_adaptive_threshold]
    rcases le_or_lt frameCount 1 with hle | hgt
    · rw [if_pos hle]
    · rw [if_neg (by omega), if_pos hemp]
  · intro h1 hemp
    simp only [calculate_adaptive_threshold]
    rw [if_neg (by omega), if_neg (by simp [hemp])]

/-- Witness for `C4_adaptive_threshold`: a zero-frame video falls back to
`0.1`, inside `[0.05, 0.3]`. -/
theorem C4_witness :
    ((0.05 : ℝ) ≤
        calculate_adaptive_threshold 0 (fun _ : ℕ => (none : Option Unit)) (fun _ _ => 0) 10 ∧
      calculate_adaptive_threshold 0 (fun _ : ℕ => (none : Option Unit)) (fun _ _ => 0) 10 ≤
        0.3) ∧
    calculate_adaptive_threshold 0 (fun _ : ℕ => (none : Option Unit)) (fun _ _ => 0) 10 =
      0.1 := by
  have h := C4_adaptive_threshold 0 (fun _ : ℕ => (none : Option Unit)) (fun _ _ => 0) 10
  exact ⟨h.1, h.2.1 (by omega)⟩

theorem extractLoop_timestamp_eq {F : Type} (read : ℕ → Option F) (diff : F → F → ℝ)
    (threshold : ℝ) (fps : ℚ) (frameCount interval maxShots : ℕ) (hI : 0 < interval) :
    ∀ (pos : ℕ) (prev : Option F) (shots : ℕ),
      ∀ r ∈ extractLoop read diff threshold fps frameCount interval maxShots hI pos prev shots,
        r.timestamp = (r.frame_number : ℚ) / fps := by
  intro pos prev shots
  induction pos, prev, shots using extractLoop.induct read diff threshold fps frameCount
    interval maxShots hI with
  | case1 pos prev shots h hread =>
    intro r hr
    rw [extractLoop_eq_readfail prev h hread] at hr
    simp at hr
  | case2 pos shots h pf hread ih =>
    intro r hr
    rw [extractLoop_eq_first h hread] at hr
    rcases List.mem_cons.mp hr with hr | hr
    · rw [hr]
    · exact ih r hr
  | case3 pos shots h pf hread pf1 hd ih =>
    intro r hr
    rw [extractLoop_eq_emit h hread hd] at hr
    rcases List.mem_cons.mp hr with hr | hr
    · rw [hr]
    · exact ih r hr
  | case4 pos shots h pf hread pf1 hd ih =>
    intro r hr
    rw [extractLoop_eq_skip h hread hd] at hr
    exact ih r hr
  | case5 pos prev shots h =>
    intro r hr
    rw [extractLoop_eq_stop prev h] at hr
    simp at hr

theorem extractLoop_frames_pairwise {F : Type} (read : ℕ → Option F) (diff : F → F → ℝ)
    (threshold : ℝ) (fps : ℚ) (frameCount interval maxShots : ℕ) (hI : 0 < interval) :
    ∀ (pos : ℕ) (prev : Option F) (shots : ℕ),
      List.Pairwise (fun a b : KeyRecord => a.frame_number < b.frame_number)
        (extractLoop read diff threshold fps frameCount interval maxShots hI pos prev shots) := by
  intro pos prev shots
  induction pos, prev, shots using extractLoop.induct read diff threshold fps frameCount
    interval maxShots hI with
  | case1 pos prev shots h hread =>
    rw [extractLoop_eq_readfail prev h hread]
    exact List.Pairwise.nil
  | case2 pos shots h pf hread ih =>
    rw [extractLoop_eq_first h hread]
    refine List.pairwise_cons.mpr ⟨?_, ih⟩
    intro b hb
    have := extractLoop_mem_pos_le read diff threshold fps frameCount interval maxShots hI
      (pos + interval) (some pf) (shots + 1) b hb
    show pos < b.frame_number
    omega
  | case3 pos shots h pf hread pf1 hd ih =>
    rw [extractLoop_eq_emit h hread hd]
    refine List.pairwise_cons.mpr ⟨?_, ih⟩
    intro b hb
    have := extractLoop_mem_pos_le read diff threshold fps frameCount interval maxShots hI
      (pos + interval) (some pf) (shots + 1) b hb
    show pos < b.frame_number
    omega
  | case4 pos shots h pf hread pf1 hd ih =>
    rw [extractLoop_eq_skip h hread hd]
    exact ih
  | case5 pos prev shots h =>
    rw [extractLoop_eq_stop prev h]
    exact List.Pairwise.nil

/-- Claim C6: in every run of `extract_keyframes` the emitted records have
strictly increasing frame numbers and strictly increasing timestamps, in
emission order. -/
theorem C6_strictly_increasing {F : Type} (read : ℕ → Option F) (diff : F → F → ℝ)
    (fps0 capture_interval : ℚ) (frameCount maxShots : ℕ) :
    List.Pairwise (fun a b : ℕ => a < b)
      ((extract_keyframes read diff fps0 capture_interval frameCount maxShots).map
        KeyRecord.frame_number) ∧
    List.Pairwise (fun a b : ℚ => a < b)
      ((extract_keyframes read diff fps0 capture_interval frameCount maxShots).map
        KeyRecord.timestamp) := by
  have hfps : (0 : ℚ) < if fps0 ≤ 0 then 30 else fps0 := by
    rcases le_or_lt fps0 0 with h | h
    · rw [if_pos h]
      norm_num
    · rw [if_neg (by linarith)]
      exact h
  constructor
  · rw [List.pairwise_map]
    exact extractLoop_frames_pairwise read diff _ _ frameCount _ maxShots _ 0 none 0
  · rw [List.pairwise_map]
    refine List.Pairwise.imp_of_mem ?_
      (extractLoop_frames_pairwise read diff _ _ frameCount _ maxShots _ 0 none 0)
    intro a b ha hb hab
    have hta := extractLoop_timestamp_eq read diff _ _ frameCount _ maxShots _ 0 none 0 a ha
    have htb := extractLoop_timestamp_eq read diff _ _ frameCount _ maxShots _ 0 none 0 b hb
    show a.timestamp < b.timestamp
    rw [hta, htb]
    have hcast : (a.frame_number : ℚ) < (b.frame_number : ℚ) := by exact_mod_cast hab
    exact div_lt_div_of_pos_right hcast hfps

theorem extractLoop_const_nil {F : Type} {read : ℕ → Option F} {diff : F → F → ℝ}
    {threshold : ℝ} {fps : ℚ} {frameCount interval maxShots : ℕ} {hI : 0 < interval}
    {f0 : F} (hconst : ∀ p f', read p = some f' → f' = f0)
    (hth : ¬diff f0 f0 > threshold) :
    ∀ (pos : ℕ) (prev : Option F) (shots : ℕ), prev = some f0 →
      extractLoop read diff threshold fps frameCount interval maxShots hI pos prev shots =
        [] := by
  intro pos prev shots
  induction pos, prev, shots using extractLoop.induct read diff threshold fps frameCount
    interval maxShots hI with
  | case1 pos prev shots h hread =>
    intro hp
    exact extractLoop_eq_readfail prev h hread
  | case2 pos shots h pf hread ih =>
    intro hp
    cases hp
  | case3 pos shots h pf hread pf1 hd ih =>
    intro hp
    have h1 : pf1 = f0 := Option.some.inj hp
    have h2 : pf = f0 := hconst pos pf hread
    rw [h1, h2] at hd
    exact absurd hd hth
  | case4 pos shots h pf hread pf1 hd ih =>
    intro hp
    rw [extractLoop_eq_skip h hread hd]
    exact ih (by rw [hconst pos pf hread])
  | case5 pos prev shots h =>
    intro hp
    exact extractLoop_eq_stop prev h

/-- Claim C5: for every readable video (`frameCount > 0`, cap `> 0`, the
read at position 0 succeeds), the first read frame is emitted as the first
keyframe with frame number 0, timestamp 0 and difference score `0.0`; and
when all reads return the same frame `f0` with `diff f0 f0 = 0`, exactly one
keyframe is emitted regardless of the cap (the threshold is at least
`0.05 > 0` by `adaptiveThreshold_range`, so a zero difference never exceeds
it). -/
theorem C5_first_frame {F : Type} (read : ℕ → Option F) (diff : F → F → ℝ)
    (fps0 capture_interval : ℚ) (frameCount maxShots : ℕ) (f0 : F)
    (hfc : 0 < frameCount) (hms : 0 < maxShots) (hread : read 0 = some f0) :
    (∃ rest, extract_keyframes read diff fps0 capture_interval frameCount maxShots =
        ⟨0, 0, 0⟩ :: rest) ∧
    ((∀ p f', read p = some f' → f' = f0) → diff f0 f0 = 0 →
      (extract_keyframes read diff fps0 capture_interval frameCount maxShots).length = 1) := by
  simp only [extract_keyframes]
  have hfirst := @extractLoop_eq_first F read diff
    (calculate_adaptive_threshold frameCount read diff 10)
    (if fps0 ≤ 0 then 30 else fps0) frameCount
    ((max 1 (pyInt (capture_interval * if fps0 ≤ 0 then 30 else fps0))).toNat)
    maxShots (by omega) 0 0 f0 ⟨hfc, hms⟩ hread
  constructor
  · have hrec : (⟨0, ((0 : ℕ) : ℚ) / (if fps0 ≤ 0 then 30 else fps0), 0⟩ : KeyRecord) =
        ⟨0, 0, 0⟩ := by
      norm_num
    rw [hfirst, hrec]
    exact ⟨_, rfl⟩
  · intro hconst hd0
    have hth : ¬diff f0 f0 > calculate_adaptive_threshold frameCount read diff 10 := by
      rw [hd0]
      have := (adaptiveThreshold_range frameCount read diff 10).1
      rw [not_lt]
      linarith
    rw [hfirst, extractLoop_const_nil hconst hth _ _ 1 rfl]
    rfl

/-- Witness for `C5_first_frame`: a five-frame constant video with cap 3. -/
theorem C5_witness :
    (∃ rest, extract_keyframes (fun _ : ℕ => some ()) (fun _ _ => (0 : ℝ)) 30 1 5 3 =
        ⟨0, 0, 0⟩ :: rest) ∧
    (extract_keyframes (fun _ : ℕ => some ()) (fun _ _ => (0 : ℝ)) 30 1 5 3).length = 1 := by
  have h := C5_first_frame (fun _ : ℕ => some ()) (fun _ _ => (0 : ℝ)) 30 1 5 3 ()
    (by omega) (by omega) rfl
  exact ⟨h.1, h.2 (fun _ _ _ => rfl) rfl⟩

end VideoToPpt
